import Mathlib

/-!
Verification development for the xen-frontend Transport Phase Synchronization
and Cross-Sequence Projection Engine.

The definitions below are shallow embeddings, over `ℚ`, of the TypeScript
functions in `src/app/shared.ts`, `src/app/hooks/useTransportPlayhead.ts` and
`src/app/hooks/useSequencerRollState.tsx`.  JavaScript numbers are modelled as
rationals; the truncated-remainder operator `%` of JavaScript is modelled by
`jsMod1` (remainder by 1), and non-finite / non-number wire values are
modelled explicitly by the `WireValue` type where validation of them matters.
-/

namespace XenFrontend

/-- `clampNumber` from shared.ts: `Math.min(max, Math.max(min, value))`. -/
def clampNumber (value lo hi : ℚ) : ℚ := min hi (max lo value)

/-- JavaScript `Math.trunc` (round toward zero) on rationals. -/
def jsTrunc (q : ℚ) : ℤ := if 0 ≤ q then ⌊q⌋ else ⌈q⌉

/-- JavaScript `q % 1` (truncated remainder by one). -/
def jsMod1 (q : ℚ) : ℚ := q - jsTrunc q

/-- `normalizePhase` from shared.ts: `((value % 1) + 1) % 1`. -/
def normalizePhase (value : ℚ) : ℚ := jsMod1 (jsMod1 value + 1)

theorem jsMod1_nonneg_of_nonneg (q : ℚ) (h : 0 ≤ q) : 0 ≤ jsMod1 q ∧ jsMod1 q < 1 := by
  unfold jsMod1 jsTrunc
  rw [if_pos h]
  constructor
  · have := Int.sub_one_lt_floor q
    have h0 : (⌊q⌋ : ℚ) ≤ q := Int.floor_le q
    linarith [Int.floor_le q]
  · have := Int.lt_floor_add_one q
    linarith

theorem jsMod1_neg_bounds (q : ℚ) (h : ¬ 0 ≤ q) : -1 < jsMod1 q ∧ jsMod1 q ≤ 0 := by
  unfold jsMod1 jsTrunc
  rw [if_neg h]
  constructor
  · have := Int.ceil_lt_add_one q
    linarith
  · have := Int.le_ceil q
    linarith

/-- `normalizePhase` always lands in `[0, 1)`. -/
theorem normalizePhase_mem_Ico (value : ℚ) :
    0 ≤ normalizePhase value ∧ normalizePhase value < 1 := by
  unfold normalizePhase
  by_cases h : 0 ≤ value
  · have h1 := jsMod1_nonneg_of_nonneg value h
    exact jsMod1_nonneg_of_nonneg (jsMod1 value + 1) (by linarith [h1.1])
  · have h1 := jsMod1_neg_bounds value h
    exact jsMod1_nonneg_of_nonneg (jsMod1 value + 1) (by linarith [h1.1])

/-- On `[0, 1)` the fold `normalizePhase` is the identity. -/
theorem normalizePhase_eq_self (value : ℚ) (h0 : 0 ≤ value) (h1 : value < 1) :
    normalizePhase value = value := by
  unfold normalizePhase jsMod1 jsTrunc
  rw [if_pos h0]
  have hf : ⌊value⌋ = 0 := Int.floor_eq_zero_iff.mpr ⟨h0, h1⟩
  rw [hf]
  have h0' : (0 : ℚ) ≤ value - (0 : ℤ) + 1 := by push_cast; linarith
  rw [if_pos h0']
  have hf1 : ⌊value - ((0 : ℤ) : ℚ) + 1⌋ = 1 := by
    rw [show value - ((0 : ℤ) : ℚ) + 1 = value + 1 by push_cast; ring]
    rw [Int.floor_add_one, Int.floor_eq_zero_iff.mpr ⟨h0, h1⟩]
    ring
  rw [hf1]
  push_cast
  ring

/-! ### Pattern-prefix parser and matcher (shared.ts) -/

/-- Result type of `parsePatternPrefix` (`PatternPrefix` in shared.ts). -/
structure PatternPrefix where
  offset : ℤ
  intervals : List ℤ
deriving DecidableEq

/-- Helper for the tokenization in `parsePatternPrefix`: splitting a
character list at maximal whitespace runs, accumulating the current token in
reverse.  This computes, in one pass, the composite
`value.trimStart().split(/\s+/).filter(t => t.length > 0)` of the source
(leading whitespace, separator runs and empty fragments all produce no
token). -/
def splitWhitespaceAux : List Char → List Char → List (List Char)
  | [], current => if current.isEmpty then [] else [current.reverse]
  | c :: restChars, current =>
    if c.isWhitespace then
      if current.isEmpty then splitWhitespaceAux restChars []
      else current.reverse :: splitWhitespaceAux restChars []
    else splitWhitespaceAux restChars (c :: current)

/-- Tokenization in `parsePatternPrefix`:
`value.trimStart().split(/\s+/).filter(t => t.length > 0)`. -/
def tokenizeCommandText (value : String) : List String :=
  (splitWhitespaceAux value.toList []).map (fun cs => String.mk cs)

/-- The JavaScript regex test `/^\+\d+$/.test(t)`. -/
def isOffsetToken (t : String) : Bool :=
  match t.toList with
  | '+' :: restChars => !restChars.isEmpty && restChars.all (fun c => c.isDigit)
  | _ => false

/-- The JavaScript regex test `/^\d+$/.test(t)`. -/
def isStrideToken (t : String) : Bool :=
  !t.toList.isEmpty && t.toList.all (fun c => c.isDigit)

/-- `Number(t)` on an all-digit token (decimal value of the digit string). -/
def digitsToNat (cs : List Char) : ℕ :=
  cs.foldl (fun acc c => 10 * acc + (c.toNat - Char.toNat '0')) 0

/-- The stride-collection loop of `parsePatternPrefix`: walk tokens while they
match `/^\d+$/`, pushing each parsed value that is `> 0`, stopping at the
first non-digit token. -/
def collectStrideTokens : List String → List ℤ
  | [] => []
  | t :: rest =>
    if isStrideToken t then
      if (digitsToNat t.toList : ℤ) > 0 then
        (digitsToNat t.toList : ℤ) :: collectStrideTokens rest
      else collectStrideTokens rest
    else []

/-- `parsePatternPrefix` from shared.ts. -/
def parsePatternPrefix (value : String) : Option PatternPrefix :=
  match tokenizeCommandText value with
  | [] => none
  | first :: rest =>
    if isOffsetToken first then
      let offset : ℤ := max 0 (digitsToNat (first.toList.drop 1) : ℤ)
      let intervals := collectStrideTokens rest
      if intervals.isEmpty then some ⟨offset, [1]⟩ else some ⟨offset, intervals⟩
    else
      let intervals := collectStrideTokens (first :: rest)
      if intervals.isEmpty then none else some ⟨0, intervals⟩

/-- The while-loop of `getPatternIndices`, with explicit fuel (the source loop
has no built-in bound; `none` means the loop did not finish within `fuel`
iterations).  Each iteration: if `position < sequenceLength`, record
`position` when `0 ≤ position`, then advance by
`pattern.intervals[intervalIndex] ?? 1` and cycle
`intervalIndex` modulo the stride-list length. -/
def matchLoopFuel (intervals : List ℤ) (sequenceLength : ℤ) :
    ℕ → ℤ → ℕ → List ℤ → Option (List ℤ)
  | 0, _, _, _ => none
  | fuel + 1, position, intervalIndex, acc =>
    if position < sequenceLength then
      matchLoopFuel intervals sequenceLength fuel
        (position + intervals.getD intervalIndex 1)
        ((intervalIndex + 1) % intervals.length)
        (if 0 ≤ position then acc ++ [position] else acc)
    else some acc

/-- `getPatternIndices` from shared.ts.  The match set is returned as the list
of indices in insertion order (the source accumulates them in a JS `Set`).
The fuel `(sequenceLength - offset).toNat + 1` is an upper bound on the
number of loop iterations whenever every stride is strictly positive (proved
below); `some []` is returned directly when `sequenceLength ≤ 0`, as in the
source. -/
def getPatternIndices (sequenceLength : ℤ) (pattern : PatternPrefix) :
    Option (List ℤ) :=
  if sequenceLength ≤ 0 then some []
  else
    matchLoopFuel pattern.intervals sequenceLength
      ((sequenceLength - pattern.offset).toNat + 1) pattern.offset 0 []

theorem matchLoopFuel_isSome (intervals : List ℤ) (sequenceLength : ℤ)
    (hpos : ∀ s ∈ intervals, 0 < s) :
    ∀ (fuel : ℕ) (position : ℤ) (intervalIndex : ℕ) (acc : List ℤ),
      (sequenceLength - position).toNat < fuel →
      (matchLoopFuel intervals sequenceLength fuel position intervalIndex acc).isSome := by
  intro fuel
  induction fuel with
  | zero => intro position intervalIndex acc h; omega
  | succ fuel ih =>
    intro position intervalIndex acc h
    rw [matchLoopFuel]
    by_cases hlt : position < sequenceLength
    · rw [if_pos hlt]
      have hstep : 0 < intervals.getD intervalIndex 1 := by
        by_cases hidx : intervalIndex < intervals.length
        · rw [List.getD_eq_getElem intervals 1 hidx]
          exact hpos _ (intervals.getElem_mem hidx)
        · rw [List.getD_eq_default intervals 1 (by omega)]
          exact one_pos
      exact ih _ _ _ (by omega)
    · rw [if_neg hlt]
      simp

/-! ### Cell tree and flattener (shared.ts) -/

/-- The recursive `Cell` type from shared.ts: `NoteCell | RestCell |
SequenceCell` (the spec calls the `Sequence` variant "Group"). -/
inductive Cell where
  | note (weight : ℚ) (pitch : ℤ) (velocity : ℚ) (delay : ℚ) (gate : ℚ)
  | rest (weight : ℚ)
  | seq (weight : ℚ) (cells : List Cell)

/-- The `weight` field common to all three `Cell` variants. -/
def Cell.weight : Cell → ℚ
  | .note w _ _ _ _ => w
  | .rest w => w
  | .seq w _ => w

/-- `time_signature` field of a `Measure`. -/
structure TimeSignature where
  numerator : ℚ
  denominator : ℚ
deriving DecidableEq

/-- `Measure` from shared.ts. -/
structure Measure where
  cell : Cell
  time_signature : TimeSignature

/-- `NoteSpanIR` from shared.ts. -/
structure NoteSpanIR where
  sequenceIndex : ℕ
  pitch : ℤ
  x : ℚ
  width : ℚ
  velocity : ℚ
deriving DecidableEq

/-- `getCellWeight` from shared.ts: `weight > 0 ? weight : 1`. -/
def getCellWeight (weight : ℚ) : ℚ := if weight > 0 then weight else 1

/-- `getMeasureLoopQuarterNotes` from shared.ts. -/
def getMeasureLoopQuarterNotes (measure : Option Measure) : ℚ :=
  match measure with
  | none => 0
  | some m =>
    if m.time_signature.numerator ≤ 0 ∨ m.time_signature.denominator ≤ 0 then 0
    else m.time_signature.numerator * (4 / m.time_signature.denominator)

mutual

/-- `walkCell` inside `flattenMeasureToNoteIR`: recursive proportional
subdivision of `[segmentStart, segmentStart + segmentWidth)`. -/
def walkCell (sequenceIndex : ℕ) (cell : Cell) (segmentStart segmentWidth : ℚ) :
    List NoteSpanIR :=
  if segmentWidth ≤ 0 then []
  else
    match cell with
    | .rest _ => []
    | .note _ pitch velocity delay gate =>
      let noteDelay := clampNumber delay 0 1
      let noteGate := clampNumber gate 0 1
      let noteStart := segmentStart + noteDelay * segmentWidth
      let noteEnd := noteStart + max 0 ((1 - noteDelay) * noteGate * segmentWidth)
      let clampedStart := clampNumber noteStart 0 1
      let clampedEnd := clampNumber noteEnd 0 1
      let clampedWidth := clampedEnd - clampedStart
      if clampedWidth ≤ 0 then []
      else
        [{ sequenceIndex := sequenceIndex, pitch := pitch, x := clampedStart,
           width := clampedWidth, velocity := clampNumber velocity 0 1 }]
    | .seq _ cells =>
      if cells.isEmpty then []
      else
        let totalWeight := (cells.map (fun child => getCellWeight child.weight)).sum
        if totalWeight ≤ 0 then []
        else walkCells sequenceIndex totalWeight segmentWidth cells segmentStart

/-- The `for (const child of cell.cells)` loop inside `walkCell`, carrying the
running `cursor`; `totalWeight` and `segmentWidth` are those of the enclosing
`Sequence` cell. -/
def walkCells (sequenceIndex : ℕ) (totalWeight segmentWidth : ℚ)
    (cells : List Cell) (cursor : ℚ) : List NoteSpanIR :=
  match cells with
  | [] => []
  | child :: rest =>
    let childWidth := segmentWidth * getCellWeight child.weight / totalWeight
    walkCell sequenceIndex child cursor childWidth ++
      walkCells sequenceIndex totalWeight segmentWidth rest (cursor + childWidth)

end

/-- `flattenMeasureToNoteIR` from shared.ts. -/
def flattenMeasureToNoteIR (measure : Measure) (sequenceIndex : ℕ) :
    List NoteSpanIR :=
  walkCell sequenceIndex measure.cell 0 1

/-! ### Cross-sequence projection (shared.ts) -/

/-- The integer values visited by
`for (let loopIndex = firstLoop; loopIndex <= lastLoop; loopIndex += 1)`. -/
def loopIndices (firstLoop lastLoop : ℤ) : List ℤ :=
  (List.range (lastLoop + 1 - firstLoop).toNat).map (fun n : ℕ => firstLoop + (n : ℤ))

/-- The body of the inner loop of `windowBackgroundNotes` for one repeat
`loopIndex` of one background note (`none` models `continue`). -/
def projectNoteAtLoop (ratioFgToBg bgPhaseAtSelectedStart noteStart noteEnd : ℚ)
    (note : NoteSpanIR) (loopIndex : ℤ) : Option NoteSpanIR :=
  let bgWindowStart := bgPhaseAtSelectedStart
  let bgWindowEnd := bgPhaseAtSelectedStart + ratioFgToBg
  let loopStart := (loopIndex : ℚ) + noteStart
  let loopEnd := (loopIndex : ℚ) + noteEnd
  let overlapStart := max loopStart bgWindowStart
  let overlapEnd := min loopEnd bgWindowEnd
  if overlapEnd ≤ overlapStart then none
  else
    let projectedStart :=
      clampNumber ((overlapStart - bgPhaseAtSelectedStart) / ratioFgToBg) 0 1
    let projectedEnd :=
      clampNumber ((overlapEnd - bgPhaseAtSelectedStart) / ratioFgToBg) 0 1
    let projectedWidth := projectedEnd - projectedStart
    if projectedWidth ≤ 0 then none
    else
      some { sequenceIndex := note.sequenceIndex, pitch := note.pitch,
             x := projectedStart, width := projectedWidth,
             velocity := note.velocity }

/-- `windowBackgroundNotes` from shared.ts (the `Number.isFinite` guard on the
ratio is vacuous over `ℚ` and is modelled by the `≤ 0` test alone). -/
def windowBackgroundNotes (bgIr : List NoteSpanIR)
    (ratioFgToBg selectedPhase bgPhase : ℚ) : List NoteSpanIR :=
  if ratioFgToBg ≤ 0 then []
  else
    let bgPhaseAtSelectedStart := bgPhase - selectedPhase * ratioFgToBg
    let bgWindowStart := bgPhaseAtSelectedStart
    let bgWindowEnd := bgPhaseAtSelectedStart + ratioFgToBg
    bgIr.flatMap (fun note =>
      let noteStart := clampNumber note.x 0 1
      let noteEnd := clampNumber (note.x + note.width) 0 1
      if noteEnd ≤ noteStart then []
      else
        let firstLoop := ⌊bgWindowStart - noteEnd⌋ + 1
        let lastLoop := ⌈bgWindowEnd - noteStart⌉ - 1
        (loopIndices firstLoop lastLoop).filterMap
          (projectNoteAtLoop ratioFgToBg bgPhaseAtSelectedStart noteStart
            noteEnd note))

/-- `getProjectedBgTriggerPhase` from shared.ts (`ε = 1e-9`; the
`Number.isFinite` guards are vacuous over `ℚ`). -/
def getProjectedBgTriggerPhase (ratioFgToBg selectedPhase bgPhase : ℚ) :
    Option ℚ :=
  if ratioFgToBg ≤ 0 then none
  else
    let bgPhaseAtSelectedStart := bgPhase - selectedPhase * ratioFgToBg
    let eps : ℚ := 1 / 1000000000
    let triggerOrdinal := ⌈bgPhaseAtSelectedStart - eps⌉
    let projected := ((triggerOrdinal : ℚ) - bgPhaseAtSelectedStart) / ratioFgToBg
    if projected < 0 ∨ 1 ≤ projected then none
    else some projected

/-! ### Transport phase state and message handlers
(useSequencerRollState.tsx, useTransportPlayhead.ts) -/

/-- A JavaScript value as it matters to the transport-message validators:
either not a number at all (`typeof value !== 'number'`), a non-finite
number (`NaN`, `±Infinity`), or a finite number modelled as a rational. -/
inductive WireValue where
  | nonNumber
  | nonFiniteNumber
  | num (q : ℚ)
deriving DecidableEq

/-- One element of the `phases` array of a `transport.phase.sync` payload:
either not an object (`asRecord` returns `null`), or an object with
`sequence_index` and `phase` fields. -/
inductive WireEntry where
  | junk
  | fields (sequence_index : WireValue) (phase : WireValue)
deriving DecidableEq

/-- `toSequenceIndex` from shared.ts: a finite number that is an integer in
`[0, TRANSPORT_SEQUENCE_COUNT)` with `TRANSPORT_SEQUENCE_COUNT = 16`. -/
def toSequenceIndex (value : WireValue) : Option ℕ :=
  match value with
  | .num q =>
    if q.den = 1 ∧ 0 ≤ q.num ∧ q.num < 16 then some q.num.toNat else none
  | _ => none

/-- `typeof phase === 'number' && Number.isFinite(phase)` in the sync
handler. -/
def toFinitePhase (value : WireValue) : Option ℚ :=
  match value with
  | .num q => some q
  | _ => none

/-- `SyncedTransportPhases` from shared.ts: per-slot wrapped and unwrapped
phases, modelled as total functions on slot indices (JS array reads use
`?? 0`, so absent entries behave as the function default would). -/
structure SyncedPhases where
  wrapped : ℕ → ℚ
  unwrapped : ℕ → ℚ

/-- The whole client-side transport state touched by the handlers:
`transportRef.current` (`active`, `phase`, `bpm`), the
`syncedTransportPhases` React state, and the `playheadPhase` display value. -/
structure FrontendState where
  active : ℕ → Bool
  transportPhase : ℕ → ℚ
  bpm : ℚ
  synced : SyncedPhases
  playheadPhase : Option ℚ

/-- One iteration of the `for (const rawPhaseEntry of phases)` loop inside
`setSyncedTransportPhases` in the `transport.phase.sync` handler:
`previous` is the pre-message state (the source reads `previous.wrapped` /
`previous.unwrapped`), `acc` the accumulating `nextWrapped`/`nextUnwrapped`
arrays. -/
def syncEntryStep (previous : SyncedPhases) (acc : SyncedPhases)
    (entry : WireEntry) : SyncedPhases :=
  match entry with
  | .junk => acc
  | .fields rawIndex rawPhase =>
    match toSequenceIndex rawIndex with
    | none => acc
    | some sequenceIndex =>
      match toFinitePhase rawPhase with
      | none => acc
      | some phase =>
        let normalizedPhase := normalizePhase phase
        let previousWrapped := previous.wrapped sequenceIndex
        let previousUnwrapped := previous.unwrapped sequenceIndex
        let delta0 := normalizedPhase - previousWrapped
        let delta :=
          if delta0 > 1/2 then delta0 - 1
          else if delta0 < -(1/2) then delta0 + 1
          else delta0
        let nextUnwrappedPhase := previousUnwrapped + delta
        if acc.wrapped sequenceIndex = normalizedPhase ∧
            acc.unwrapped sequenceIndex = nextUnwrappedPhase then acc
        else
          { wrapped := Function.update acc.wrapped sequenceIndex normalizedPhase,
            unwrapped :=
              Function.update acc.unwrapped sequenceIndex nextUnwrappedPhase }

/-- The `setSyncedTransportPhases` updater of the `transport.phase.sync`
handler, value-level: fold the entry loop over the message's `phases` array.
(The source's `changed` flag only controls whether the same-valued object or
the old object is returned, so it is invisible at the level of values: when
no entry changes anything every step returns `acc` unchanged.) -/
def applySyncEntries (previous : SyncedPhases) (phases : List WireEntry) :
    SyncedPhases :=
  phases.foldl (syncEntryStep previous) previous

/-- The second loop of the `transport.phase.sync` handler, which writes the
normalized wrapped phases into `transportRef.current.phase`. -/
def applySyncTransportPhases (phase : ℕ → ℚ) (phases : List WireEntry) :
    ℕ → ℚ :=
  phases.foldl
    (fun acc entry =>
      match entry with
      | .junk => acc
      | .fields rawIndex rawPhase =>
        match toSequenceIndex rawIndex with
        | none => acc
        | some sequenceIndex =>
          match toFinitePhase rawPhase with
          | none => acc
          | some p => Function.update acc sequenceIndex (normalizePhase p))
    phase

/-- The complete `transport.phase.sync` handler: the `bpm` guard
(`typeof bpm === 'number' && Number.isFinite(bpm) && bpm > 0`), both phase
loops, and the final `playheadPhase` refresh from
`transportRef.current.phase[selectedIndex]`. -/
def applyPhaseSync (selectedIndex : ℕ) (rawBpm : WireValue)
    (phases : List WireEntry) (s : FrontendState) : FrontendState :=
  let bpm' :=
    match rawBpm with
    | .num q => if q > 0 then q else s.bpm
    | _ => s.bpm
  let synced' := applySyncEntries s.synced phases
  let transportPhase' := applySyncTransportPhases s.transportPhase phases
  { active := s.active
    transportPhase := transportPhase'
    bpm := bpm'
    synced := synced'
    playheadPhase :=
      if s.active selectedIndex then some (transportPhase' selectedIndex)
      else none }

/-- The `transport.trigger.noteOn` handler: validate the index, set the slot
active, and refresh the playhead when the slot is the selected one.  Phase
entries are left untouched. -/
def applyNoteOn (selectedIndex : ℕ) (rawIndex : WireValue)
    (s : FrontendState) : FrontendState :=
  match toSequenceIndex rawIndex with
  | none => s
  | some sequenceIndex =>
    { s with
      active := Function.update s.active sequenceIndex true
      playheadPhase :=
        if sequenceIndex = selectedIndex then some (s.transportPhase sequenceIndex)
        else s.playheadPhase }

/-- The `transport.trigger.noteOff` handler: validate the index, deactivate
the slot, reset `transportRef.current.phase[i]` to 0, reset the slot's
wrapped and unwrapped synced phases to 0 (the source's early-return when both
are already 0 is value-level identity and is kept as the `if`), and clear the
playhead when the slot is the selected one. -/
def applyNoteOff (selectedIndex : ℕ) (rawIndex : WireValue)
    (s : FrontendState) : FrontendState :=
  match toSequenceIndex rawIndex with
  | none => s
  | some sequenceIndex =>
    { s with
      active := Function.update s.active sequenceIndex false
      transportPhase := Function.update s.transportPhase sequenceIndex 0
      synced :=
        if s.synced.wrapped sequenceIndex = 0 ∧
            s.synced.unwrapped sequenceIndex = 0 then s.synced
        else
          { wrapped := Function.update s.synced.wrapped sequenceIndex 0,
            unwrapped := Function.update s.synced.unwrapped sequenceIndex 0 }
      playheadPhase :=
        if sequenceIndex = selectedIndex then none else s.playheadPhase }

/-- A transport event message, as dispatched on `eventEnvelope.name`. -/
inductive TransportMessage where
  | phaseSync (bpm : WireValue) (phases : List WireEntry)
  | noteOn (sequence_index : WireValue)
  | noteOff (sequence_index : WireValue)

/-- Dispatch of the three transport event handlers. -/
def applyTransportMessage (selectedIndex : ℕ) (message : TransportMessage)
    (s : FrontendState) : FrontendState :=
  match message with
  | .phaseSync rawBpm phases => applyPhaseSync selectedIndex rawBpm phases s
  | .noteOn rawIndex => applyNoteOn selectedIndex rawIndex s
  | .noteOff rawIndex => applyNoteOff selectedIndex rawIndex s

/-- The per-frame `tick` of `useTransportPlayhead.ts`.  `frameDtMs` is
`frameTimeMs - lastAnimationFrameMs`; the source computes
`dtSec = Math.max(0, frameDtMs / 1000)`.  Note that the integrator reads and
writes only `transportRef.current.phase` (mod-folded by `% 1`) and the
displayed `playheadPhase`; it has no access to the `syncedTransportPhases`
store, which is carried through unchanged. -/
def tick (frameDtMs : ℚ) (numerator denominator : ℚ) (selectedIndex : ℕ)
    (s : FrontendState) : FrontendState :=
  let dtSec := max 0 (frameDtMs / 1000)
  if ¬ s.active selectedIndex ∨ s.bpm ≤ 0 ∨ numerator ≤ 0 ∨ denominator ≤ 0 then
    { s with playheadPhase := none }
  else
    let quartersPerLoop := numerator * (4 / denominator)
    let loopSec := quartersPerLoop * 60 / s.bpm
    if loopSec ≤ 0 then { s with playheadPhase := none }
    else
      let nextPhase := jsMod1 (s.transportPhase selectedIndex + dtSec / loopSec)
      { s with
        transportPhase := Function.update s.transportPhase selectedIndex nextPhase
        playheadPhase := some nextPhase }

/-- The phase the cross-sequence projector (`backgroundOverlayStates` in
useSequencerRollState.tsx) reads for a slot:
`syncedTransportPhases.unwrapped[index] ?? 0`. -/
def projectorUnwrappedPhase (s : FrontendState) (index : ℕ) : ℚ :=
  s.synced.unwrapped index

/-! ### Claim theorems -/

/-- C6: parsing the text `"+2 3 1"` yields offset 2 and stride list `[3, 1]`,
and matching that pattern over scope length 10 yields exactly the index set
`{2, 5, 6, 9}` (given here in the insertion order of the source's `Set`). -/
theorem parse_and_match_plus2_3_1 :
    parsePatternPrefix "+2 3 1" = some ⟨2, [3, 1]⟩ ∧
    getPatternIndices 10 ⟨2, [3, 1]⟩ = some [2, 5, 6, 9] :=
  ⟨rfl, rfl⟩

/-- C8: for every pattern whose stride list consists of strictly positive
integers and every integer scope length, the matching loop terminates within
the analytic iteration bound (the fuel of `getPatternIndices`), so the result
is `some` list; and every `sequenceLength ≤ 0` yields the empty match set. -/
theorem getPatternIndices_total (pattern : PatternPrefix) (sequenceLength : ℤ)
    (hpos : ∀ s ∈ pattern.intervals, 0 < s) :
    (∃ l, getPatternIndices sequenceLength pattern = some l) ∧
    (sequenceLength ≤ 0 → getPatternIndices sequenceLength pattern = some []) := by
  constructor
  · unfold getPatternIndices
    by_cases h : sequenceLength ≤ 0
    · exact ⟨[], by rw [if_pos h]⟩
    · rw [if_neg h]
      have hs := matchLoopFuel_isSome pattern.intervals sequenceLength hpos
        ((sequenceLength - pattern.offset).toNat + 1) pattern.offset 0 [] (by omega)
      exact Option.isSome_iff_exists.mp hs
  · intro h
    unfold getPatternIndices
    rw [if_pos h]

/-- Witness for C8 at the concrete pattern `offset 0, strides [2]` over scope
length 5. -/
theorem getPatternIndices_total_witness :
    (∃ l, getPatternIndices 5 ⟨0, [2]⟩ = some l) ∧
    ((5 : ℤ) ≤ 0 → getPatternIndices 5 ⟨0, [2]⟩ = some []) :=
  getPatternIndices_total ⟨0, [2]⟩ 5 (by decide)

/-- C5: for every ratio, foreground phase and background phase, with
`anchor = bgPhase - selectedPhase * ratio`, the projected trigger phase is
`(⌈anchor - 1e-9⌉ - anchor) / ratio` and is returned exactly when that value
lies in `[0, 1)`; a ratio `≤ 0` yields `none`. -/
theorem getProjectedBgTriggerPhase_spec (ratioFgToBg selectedPhase bgPhase : ℚ) :
    (ratioFgToBg ≤ 0 →
      getProjectedBgTriggerPhase ratioFgToBg selectedPhase bgPhase = none) ∧
    (0 < ratioFgToBg →
      getProjectedBgTriggerPhase ratioFgToBg selectedPhase bgPhase =
        if 0 ≤ ((⌈bgPhase - selectedPhase * ratioFgToBg - 1/1000000000⌉ : ℚ)
              - (bgPhase - selectedPhase * ratioFgToBg)) / ratioFgToBg ∧
            ((⌈bgPhase - selectedPhase * ratioFgToBg - 1/1000000000⌉ : ℚ)
              - (bgPhase - selectedPhase * ratioFgToBg)) / ratioFgToBg < 1
        then some (((⌈bgPhase - selectedPhase * ratioFgToBg - 1/1000000000⌉ : ℚ)
              - (bgPhase - selectedPhase * ratioFgToBg)) / ratioFgToBg)
        else none) := by
  constructor
  · intro h
    unfold getProjectedBgTriggerPhase
    rw [if_pos h]
  · intro h
    unfold getProjectedBgTriggerPhase
    rw [if_neg (not_le.mpr h)]
    by_cases hv : 0 ≤ ((⌈bgPhase - selectedPhase * ratioFgToBg - 1/1000000000⌉ : ℚ)
          - (bgPhase - selectedPhase * ratioFgToBg)) / ratioFgToBg ∧
        ((⌈bgPhase - selectedPhase * ratioFgToBg - 1/1000000000⌉ : ℚ)
          - (bgPhase - selectedPhase * ratioFgToBg)) / ratioFgToBg < 1
    · rw [if_pos hv, if_neg (by push_neg; constructor <;> [exact hv.1; exact hv.2])]
    · rw [if_neg hv]
      rcases not_and_or.mp hv with h1 | h2
      · rw [if_pos (Or.inl (not_le.mp h1))]
      · rw [if_pos (Or.inr (not_lt.mp h2))]

/-- Witness for C5 at `anchor = 1.3`, `ratio = 2.0` (taking
`selectedPhase = 0`, `bgPhase = 1.3`): the trigger phase is `0.35`. -/
theorem getProjectedBgTriggerPhase_spec_witness :
    getProjectedBgTriggerPhase 2 0 (13/10) = some (7/20) := by
  have h := (getProjectedBgTriggerPhase_spec 2 0 (13/10)).2 (by norm_num)
  have hc : (⌈(13 : ℚ)/10 - 0 * 2 - 1/1000000000⌉ : ℤ) = 2 := by
    rw [Int.ceil_eq_iff]
    norm_num
  rw [hc] at h
  rw [h]
  norm_num

theorem toSequenceIndex_natCast (i : ℕ) (h : i < 16) :
    toSequenceIndex (.num (i : ℚ)) = some i := by
  have hcond : ((i : ℚ)).den = 1 ∧ 0 ≤ ((i : ℚ)).num ∧ ((i : ℚ)).num < 16 := by
    refine ⟨Rat.den_natCast i, ?_, ?_⟩ <;> rw [Rat.num_natCast] <;> omega
  simp only [toSequenceIndex]
  rw [if_pos hcond]
  simp

/-- C2: a phase-sync entry for slot `sequenceIndex` with sample
`p ∈ [0, 1)`, applied where the slot's pre-message state is
`(w, u) = (previous.wrapped, previous.unwrapped)`, stores `wrapped = p` and
`unwrapped = u + delta`, where `delta = p - w` shifted by `-1` when
`delta > 0.5` and by `+1` when `delta < -0.5`.  (`acc` is the accumulating
`nextWrapped`/`nextUnwrapped` state of the entry loop; the stored values do
not depend on it.) -/
theorem syncEntryStep_correction (previous acc : SyncedPhases)
    (sequenceIndex : ℕ) (p : ℚ) (h16 : sequenceIndex < 16)
    (hp0 : 0 ≤ p) (hp1 : p < 1) :
    (syncEntryStep previous acc
        (.fields (.num (sequenceIndex : ℚ)) (.num p))).wrapped sequenceIndex = p ∧
    (syncEntryStep previous acc
        (.fields (.num (sequenceIndex : ℚ)) (.num p))).unwrapped sequenceIndex =
      previous.unwrapped sequenceIndex +
        (if p - previous.wrapped sequenceIndex > 1/2 then
          p - previous.wrapped sequenceIndex - 1
        else if p - previous.wrapped sequenceIndex < -(1/2) then
          p - previous.wrapped sequenceIndex + 1
        else p - previous.wrapped sequenceIndex) := by
  simp only [syncEntryStep, toFinitePhase, toSequenceIndex_natCast sequenceIndex h16]
  rw [normalizePhase_eq_self p hp0 hp1]
  by_cases hskip : acc.wrapped sequenceIndex = p ∧
      acc.unwrapped sequenceIndex =
        previous.unwrapped sequenceIndex +
          (if p - previous.wrapped sequenceIndex > 1/2 then
            p - previous.wrapped sequenceIndex - 1
          else if p - previous.wrapped sequenceIndex < -(1/2) then
            p - previous.wrapped sequenceIndex + 1
          else p - previous.wrapped sequenceIndex)
  · rw [if_pos hskip]
    exact hskip
  · rw [if_neg hskip]
    constructor <;> simp [Function.update_same]

/-- Witness for C2 at the spec's example: previous `wrapped = 0.9`,
`unwrapped = 3.9`, sample `p = 0.05` gives `delta = 0.15`,
`unwrapped = 4.05`, `wrapped = 0.05`. -/
theorem syncEntryStep_correction_witness :
    (syncEntryStep ⟨fun _ => 9/10, fun _ => 39/10⟩ ⟨fun _ => 9/10, fun _ => 39/10⟩
        (.fields (.num ((0 : ℕ) : ℚ)) (.num (1/20)))).wrapped 0 = 1/20 ∧
    (syncEntryStep ⟨fun _ => 9/10, fun _ => 39/10⟩ ⟨fun _ => 9/10, fun _ => 39/10⟩
        (.fields (.num ((0 : ℕ) : ℚ)) (.num (1/20)))).unwrapped 0 = 81/20 := by
  have h := syncEntryStep_correction ⟨fun _ => 9/10, fun _ => 39/10⟩
    ⟨fun _ => 9/10, fun _ => 39/10⟩ 0 (1/20) (by norm_num) (by norm_num) (by norm_num)
  refine ⟨h.1, ?_⟩
  rw [h.2]
  norm_num

theorem walkCell_span_bounds (sequenceIndex : ℕ) (cell : Cell) :
    ∀ (segmentStart segmentWidth : ℚ),
      ∀ sp ∈ walkCell sequenceIndex cell segmentStart segmentWidth,
        0 ≤ sp.x ∧ sp.x < 1 ∧ 0 < sp.width ∧ sp.x + sp.width ≤ 1 := by
  refine walkCell.induct sequenceIndex
    (fun c segmentStart segmentWidth =>
      ∀ sp ∈ walkCell sequenceIndex c segmentStart segmentWidth,
        0 ≤ sp.x ∧ sp.x < 1 ∧ 0 < sp.width ∧ sp.x + sp.width ≤ 1)
    (fun totalWeight segmentWidth cells cursor =>
      ∀ sp ∈ walkCells sequenceIndex totalWeight segmentWidth cells cursor,
        0 ≤ sp.x ∧ sp.x < 1 ∧ 0 < sp.width ∧ sp.x + sp.width ≤ 1)
    ?_ ?_ ?_ ?_ ?_ ?_ ?_ ?_ ?_ cell
  · intro t segmentStart segmentWidth h sp hsp
    rw [walkCell.eq_def, if_pos h] at hsp
    simp at hsp
  · intro segmentStart segmentWidth h weight sp hsp
    rw [walkCell.eq_def, if_neg h] at hsp
    simp at hsp
  · intro segmentStart segmentWidth h weight pitch velocity delay gate
      noteDelay noteGate noteStart noteEnd clampedStart clampedEnd clampedWidth hle sp hsp
    rw [walkCell.eq_def, if_neg h] at hsp
    simp only [] at hsp
    rw [if_pos hle] at hsp
    simp at hsp
  · intro segmentStart segmentWidth h weight pitch velocity delay gate
      noteDelay noteGate noteStart noteEnd clampedStart clampedEnd clampedWidth hgt sp hsp
    rw [walkCell.eq_def, if_neg h] at hsp
    simp only [] at hsp
    rw [if_neg hgt] at hsp
    rcases List.mem_singleton.mp hsp with rfl
    have hgt' : 0 < clampedEnd - clampedStart := not_le.mp hgt
    have hs0 : 0 ≤ clampedStart := le_min (by norm_num) (le_max_left 0 noteStart)
    have hs1 : clampedEnd ≤ 1 := min_le_left 1 (max 0 noteEnd)
    have hx1 : clampedStart < 1 := by linarith
    have hsum : clampedStart + (clampedEnd - clampedStart) ≤ 1 := by linarith
    exact ⟨hs0, hx1, hgt', hsum⟩
  · intro segmentStart segmentWidth h weight cells hemp sp hsp
    rw [walkCell.eq_def, if_neg h] at hsp
    simp only [hemp] at hsp
    simp at hsp
  · intro segmentStart segmentWidth h weight cells hemp totalWeight htw sp hsp
    rw [walkCell.eq_def, if_neg h] at hsp
    simp only [] at hsp
    rw [if_neg hemp, if_pos htw] at hsp
    simp at hsp
  · intro segmentStart segmentWidth h weight cells hemp totalWeight htw ih sp hsp
    rw [walkCell.eq_def, if_neg h] at hsp
    simp only [] at hsp
    rw [if_neg hemp, if_neg htw] at hsp
    exact ih sp hsp
  · intro totalWeight segmentWidth cursor sp hsp
    rw [walkCells] at hsp
    simp at hsp
  · intro totalWeight segmentWidth cursor child rest childWidth ih1 ih2 sp hsp
    rw [walkCells] at hsp
    rcases List.mem_append.mp hsp with hs | hs
    · exact ih1 sp hs
    · exact ih2 sp hs


/-- C7: for every input cell tree (arbitrary weights, delays, gates,
nesting), every `NoteSpanIR` emitted by the flattener satisfies
`x ∈ [0, 1)`, `width > 0` and `x + width ≤ 1`; a note whose clamped width
would be `≤ 0` is never emitted (all emitted spans have positive width). -/
theorem flattenMeasureToNoteIR_span_bounds (measure : Measure) (sequenceIndex : ℕ) :
    ∀ sp ∈ flattenMeasureToNoteIR measure sequenceIndex,
      0 ≤ sp.x ∧ sp.x < 1 ∧ 0 < sp.width ∧ sp.x + sp.width ≤ 1 :=
  fun sp hsp => walkCell_span_bounds sequenceIndex measure.cell 0 1 sp hsp

/-- Witness for C7 at a concrete single-note measure, whose flattening emits
exactly the span `{x := 0, width := 1}`. -/
theorem flattenMeasureToNoteIR_span_bounds_witness :
    0 ≤ ((⟨0, 5, 0, 1, 1⟩ : NoteSpanIR)).x ∧ ((⟨0, 5, 0, 1, 1⟩ : NoteSpanIR)).x < 1 ∧
    0 < ((⟨0, 5, 0, 1, 1⟩ : NoteSpanIR)).width ∧
    ((⟨0, 5, 0, 1, 1⟩ : NoteSpanIR)).x + ((⟨0, 5, 0, 1, 1⟩ : NoteSpanIR)).width ≤ 1 := by
  refine flattenMeasureToNoteIR_span_bounds ⟨.note 1 5 1 0 1, ⟨4, 4⟩⟩ 0 _ ?_
  norm_num [flattenMeasureToNoteIR, walkCell, getCellWeight, clampNumber, Cell.weight,
    min_def, max_def]

theorem clampNumber_of_mem (v : ℚ) (h0 : 0 ≤ v) (h1 : v ≤ 1) : clampNumber v 0 1 = v := by
  unfold clampNumber
  rw [max_eq_right h0, min_eq_right h1]

theorem getCellWeight_pos (w : ℚ) : 0 < getCellWeight w := by
  unfold getCellWeight
  split <;> linarith

/-- A root-`Group` child that is a pure `Note` with `delay = 0`, `gate = 1`. -/
def simpleNoteCell (t : ℚ × ℤ × ℚ) : Cell := .note t.1 t.2.1 t.2.2 0 1

/-- The spans the spec predicts for a `Group` of pure notes: one span per
child in document order, the i-th of width `wᵢ / S` starting at the sum of
the preceding widths (carried in `start`). -/
def contiguousNoteSpans (sequenceIndex : ℕ) (totalWeight : ℚ) :
    List (ℚ × ℤ × ℚ) → ℚ → List NoteSpanIR
  | [], _ => []
  | (w, p, v) :: rest, start =>
    ⟨sequenceIndex, p, start, getCellWeight w / totalWeight, clampNumber v 0 1⟩ ::
      contiguousNoteSpans sequenceIndex totalWeight rest
        (start + getCellWeight w / totalWeight)

theorem walkCell_simple_note (sequenceIndex : ℕ) (w : ℚ) (p : ℤ) (v cursor cw : ℚ)
    (hcw : 0 < cw) (h0 : 0 ≤ cursor) (h1 : cursor + cw ≤ 1) :
    walkCell sequenceIndex (.note w p v 0 1) cursor cw =
      [⟨sequenceIndex, p, cursor, cw, clampNumber v 0 1⟩] := by
  have hd : clampNumber 0 0 1 = 0 := clampNumber_of_mem 0 le_rfl (by norm_num)
  have hg : clampNumber 1 0 1 = 1 := clampNumber_of_mem 1 (by norm_num) le_rfl
  rw [walkCell.eq_def, if_neg (not_le.mpr hcw)]
  simp only [hd, hg]
  rw [show cursor + 0 * cw = cursor by ring]
  rw [show (1 - (0 : ℚ)) * 1 * cw = cw by ring]
  rw [max_eq_right hcw.le]
  rw [clampNumber_of_mem cursor h0 (by linarith)]
  rw [clampNumber_of_mem (cursor + cw) (by linarith) h1]
  rw [if_neg (by push_neg; linarith)]
  rw [show cursor + cw - cursor = cw by ring]

theorem walkCells_simple_notes (sequenceIndex : ℕ) (S : ℚ) (hS : 0 < S) :
    ∀ (triples : List (ℚ × ℤ × ℚ)) (cursor : ℚ),
      0 ≤ cursor →
      cursor + (triples.map (fun t => getCellWeight t.1)).sum / S ≤ 1 →
      walkCells sequenceIndex S 1 (triples.map simpleNoteCell) cursor =
        contiguousNoteSpans sequenceIndex S triples cursor := by
  intro triples
  induction triples with
  | nil =>
    intro cursor h0 h1
    rw [List.map_nil, walkCells, contiguousNoteSpans]
  | cons t rest ih =>
    obtain ⟨w, p, v⟩ := t
    intro cursor h0 h1
    have hsum_rest : 0 ≤ (rest.map (fun t => getCellWeight t.1)).sum := by
      apply List.sum_nonneg
      intro x hx
      obtain ⟨t', _, rfl⟩ := List.mem_map.mp hx
      exact (getCellWeight_pos _).le
    have hw : 0 < getCellWeight w := getCellWeight_pos w
    have hsum : (List.map (fun t => getCellWeight t.1) ((w, p, v) :: rest)).sum =
        getCellWeight w + (rest.map (fun t => getCellWeight t.1)).sum := by
      rw [List.map_cons, List.sum_cons]
    rw [hsum] at h1
    have hcw : 0 < getCellWeight w / S := div_pos hw hS
    have hbound : cursor + getCellWeight w / S ≤ 1 := by
      have hle : getCellWeight w / S ≤
          (getCellWeight w + (rest.map (fun t => getCellWeight t.1)).sum) / S :=
        (div_le_div_iff_of_pos_right hS).mpr (by linarith)
      linarith
    rw [List.map_cons, walkCells]
    simp only [simpleNoteCell, Cell.weight, one_mul]
    rw [walkCell_simple_note sequenceIndex w p v cursor (getCellWeight w / S) hcw h0 hbound]
    rw [ih (cursor + getCellWeight w / S) (by linarith) (by rw [add_div] at h1; linarith)]
    rw [contiguousNoteSpans]
    simp


theorem contiguousNoteSpans_width_sum (sequenceIndex : ℕ) (S : ℚ) :
    ∀ (triples : List (ℚ × ℤ × ℚ)) (start : ℚ),
      ((contiguousNoteSpans sequenceIndex S triples start).map
        (fun sp => sp.width)).sum = (triples.map (fun t => getCellWeight t.1)).sum / S := by
  intro triples
  induction triples with
  | nil => intro start; simp [contiguousNoteSpans]
  | cons t rest ih =>
    obtain ⟨w, p, v⟩ := t
    intro start
    rw [contiguousNoteSpans, List.map_cons, List.sum_cons, ih, List.map_cons, List.sum_cons,
      add_div]

theorem contiguousNoteSpans_length (sequenceIndex : ℕ) (S : ℚ) :
    ∀ (triples : List (ℚ × ℤ × ℚ)) (start : ℚ),
      (contiguousNoteSpans sequenceIndex S triples start).length = triples.length := by
  intro triples
  induction triples with
  | nil => intro start; rfl
  | cons t rest ih =>
    obtain ⟨w, p, v⟩ := t
    intro start
    rw [contiguousNoteSpans, List.length_cons, ih, List.length_cons]

/-- C4: for every root `Group` whose children are all `Note`s with
`delay = 0` and `gate = 1` (given as `triples` of weight, pitch and
velocity), letting `S` be the sum of the children's weights with non-positive
weights counted as 1 (`getCellWeight`), the flattener emits exactly one span
per child in document order — the i-th of width `wᵢ/S`, starting at the sum
of the preceding widths (this is `contiguousNoteSpans`) — and the widths sum
to 1 and the span count equals the child count, so the spans partition
`[0, 1)` with no gaps or overlaps. -/
theorem flatten_group_of_notes_partition (ts : TimeSignature) (rootWeight : ℚ)
    (sequenceIndex : ℕ) (triples : List (ℚ × ℤ × ℚ)) (hne : triples ≠ []) :
    flattenMeasureToNoteIR ⟨.seq rootWeight (triples.map simpleNoteCell), ts⟩ sequenceIndex =
      contiguousNoteSpans sequenceIndex
        ((triples.map (fun t => getCellWeight t.1)).sum) triples 0 ∧
    ((flattenMeasureToNoteIR ⟨.seq rootWeight (triples.map simpleNoteCell), ts⟩
        sequenceIndex).map (fun sp => sp.width)).sum = 1 ∧
    (flattenMeasureToNoteIR ⟨.seq rootWeight (triples.map simpleNoteCell), ts⟩
        sequenceIndex).length = triples.length := by
  have hS : 0 < (triples.map (fun t => getCellWeight t.1)).sum := by
    obtain ⟨t, rest, rfl⟩ : ∃ t rest, triples = t :: rest := by
      cases triples with
      | nil => exact absurd rfl hne
      | cons t rest => exact ⟨t, rest, rfl⟩
    rw [List.map_cons, List.sum_cons]
    have : 0 ≤ (rest.map (fun t => getCellWeight t.1)).sum := by
      apply List.sum_nonneg
      intro x hx
      obtain ⟨t', _, rfl⟩ := List.mem_map.mp hx
      exact (getCellWeight_pos _).le
    linarith [getCellWeight_pos t.1]
  have hmapw : (List.map (fun child => getCellWeight child.weight)
      (triples.map simpleNoteCell)).sum = (triples.map (fun t => getCellWeight t.1)).sum := by
    rw [List.map_map]
    congr 1
  have hmain : flattenMeasureToNoteIR ⟨.seq rootWeight (triples.map simpleNoteCell), ts⟩
      sequenceIndex =
      contiguousNoteSpans sequenceIndex
        ((triples.map (fun t => getCellWeight t.1)).sum) triples 0 := by
    unfold flattenMeasureToNoteIR
    rw [walkCell.eq_def, if_neg (by norm_num)]
    simp only []
    rw [if_neg (by simp [hne])]
    rw [hmapw, if_neg (not_le.mpr hS)]
    exact walkCells_simple_notes sequenceIndex _ hS triples 0 le_rfl
      (by rw [zero_add, div_self (ne_of_gt hS)])
  refine ⟨hmain, ?_, ?_⟩
  · rw [hmain, contiguousNoteSpans_width_sum, div_self (ne_of_gt hS)]
  · rw [hmain, contiguousNoteSpans_length]

/-- Witness for C4 at the spec's example: a `Group` of two weight-1 notes
with pitches 0 and 7 yields spans `{pitch 0, start 0, width 0.5}` and
`{pitch 7, start 0.5, width 0.5}`. -/
theorem flatten_group_of_notes_partition_witness :
    flattenMeasureToNoteIR ⟨.seq 1 [.note 1 0 1 0 1, .note 1 7 1 0 1], ⟨4, 4⟩⟩ 0 =
      [⟨0, 0, 0, 1/2, 1⟩, ⟨0, 7, 1/2, 1/2, 1⟩] := by
  have h := (flatten_group_of_notes_partition ⟨4, 4⟩ 1 0
    [(1, 0, 1), (1, 7, 1)] (by simp)).1
  simp only [List.map, simpleNoteCell] at h
  rw [h]
  norm_num [contiguousNoteSpans, getCellWeight, clampNumber, min_def, max_def]

/-- C9: phase-sync entries are validated independently.  An entry that is
not an object, whose slot index fails `toSequenceIndex` (not an integer in
`[0, 16)`), or whose phase is not a finite number, leaves every slot's
stored wrapped/unwrapped phases exactly as they were (the entry step is the
identity, and deleting the entry from a message leaves the batch result
unchanged — so the valid entries of the same message are still applied); a
`bpm` that is not a finite number `> 0` leaves the stored bpm unchanged
while the message's phase entries are still processed. -/
theorem sync_per_entry_validation (entry : WireEntry) (rawBpm : WireValue)
    (hbad : match entry with
      | .junk => True
      | .fields rawIndex rawPhase =>
        toSequenceIndex rawIndex = none ∨ toFinitePhase rawPhase = none)
    (hbpm : match rawBpm with
      | .num q => q ≤ 0
      | _ => True) :
    (∀ previous acc, syncEntryStep previous acc entry = acc) ∧
    (∀ (previous : SyncedPhases) (xs ys : List WireEntry),
      applySyncEntries previous (xs ++ entry :: ys) =
        applySyncEntries previous (xs ++ ys)) ∧
    (∀ (selectedIndex : ℕ) (phases : List WireEntry) (s : FrontendState),
      (applyPhaseSync selectedIndex rawBpm phases s).bpm = s.bpm ∧
      (applyPhaseSync selectedIndex rawBpm phases s).synced =
        applySyncEntries s.synced phases) := by
  have hskip : ∀ previous acc, syncEntryStep previous acc entry = acc := by
    intro previous acc
    cases entry with
    | junk => rfl
    | fields rawIndex rawPhase =>
      rcases hbad with hidx | hph
      · simp only [syncEntryStep, hidx]
      · simp only [syncEntryStep, hph]
        cases htsi : toSequenceIndex rawIndex <;> simp [hph]
  refine ⟨hskip, ?_, ?_⟩
  · intro previous xs ys
    unfold applySyncEntries
    rw [List.foldl_append, List.foldl_append, List.foldl_cons, hskip]
  · intro selectedIndex phases s
    cases rawBpm with
    | num q =>
      constructor
      · simp only [applyPhaseSync]
        rw [if_neg (by linarith [hbpm])]
      · rfl
    | nonNumber => exact ⟨rfl, rfl⟩
    | nonFiniteNumber => exact ⟨rfl, rfl⟩

/-- Witness for C9: a concrete invalid entry (non-numeric slot index) is
skipped next to a valid entry, and a non-finite bpm leaves bpm at 120 while
phases are still processed. -/
theorem sync_per_entry_validation_witness :
    (syncEntryStep ⟨fun _ => 0, fun _ => 0⟩ ⟨fun _ => 0, fun _ => 0⟩
        (.fields .nonNumber (.num (1/4))) = ⟨fun _ => 0, fun _ => 0⟩) ∧
    (applySyncEntries ⟨fun _ => 0, fun _ => 0⟩
        [.fields (.num ((2 : ℕ) : ℚ)) (.num (1/4)), .fields .nonNumber (.num (1/4))] =
      applySyncEntries ⟨fun _ => 0, fun _ => 0⟩
        [.fields (.num ((2 : ℕ) : ℚ)) (.num (1/4))]) ∧
    ((applyPhaseSync 0 .nonFiniteNumber
        [.fields (.num ((2 : ℕ) : ℚ)) (.num (1/4))]
        ⟨fun _ => true, fun _ => 0, 120, ⟨fun _ => 0, fun _ => 0⟩, none⟩).bpm = 120) := by
  have h := sync_per_entry_validation (.fields .nonNumber (.num (1/4)))
    .nonFiniteNumber (Or.inl rfl) trivial
  refine ⟨h.1 _ _, ?_, ?_⟩
  · exact h.2.1 ⟨fun _ => 0, fun _ => 0⟩
      [.fields (.num ((2 : ℕ) : ℚ)) (.num (1/4))] []
  · exact (h.2.2 0 [.fields (.num ((2 : ℕ) : ℚ)) (.num (1/4))]
      ⟨fun _ => true, fun _ => 0, 120, ⟨fun _ => 0, fun _ => 0⟩, none⟩).1

theorem syncEntryStep_wrapped_bounds (previous acc : SyncedPhases) (entry : WireEntry)
    (h : ∀ i, 0 ≤ acc.wrapped i ∧ acc.wrapped i < 1) :
    ∀ i, 0 ≤ (syncEntryStep previous acc entry).wrapped i ∧
      (syncEntryStep previous acc entry).wrapped i < 1 := by
  intro i
  cases entry with
  | junk => exact h i
  | fields rawIndex rawPhase =>
    simp only [syncEntryStep]
    cases htsi : toSequenceIndex rawIndex with
    | none => exact h i
    | some j =>
      cases htp : toFinitePhase rawPhase with
      | none => exact h i
      | some p =>
        simp only []
        have hupd : ∀ d : ℚ,
            0 ≤ (if acc.wrapped j = normalizePhase p ∧
                    acc.unwrapped j = previous.unwrapped j + d
                  then acc
                  else ⟨Function.update acc.wrapped j (normalizePhase p),
                        Function.update acc.unwrapped j
                          (previous.unwrapped j + d)⟩ : SyncedPhases).wrapped i ∧
              (if acc.wrapped j = normalizePhase p ∧
                    acc.unwrapped j = previous.unwrapped j + d
                  then acc
                  else ⟨Function.update acc.wrapped j (normalizePhase p),
                        Function.update acc.unwrapped j
                          (previous.unwrapped j + d)⟩ : SyncedPhases).wrapped i < 1 := by
          intro d
          split
          · exact h i
          · by_cases hij : i = j
            · subst hij
              simp only [Function.update_same]
              exact normalizePhase_mem_Ico p
            · simp only [Function.update_noteq hij]
              exact h i
        exact hupd _

theorem applySyncEntries_wrapped_bounds (previous : SyncedPhases)
    (phases : List WireEntry) :
    ∀ (acc : SyncedPhases), (∀ i, 0 ≤ acc.wrapped i ∧ acc.wrapped i < 1) →
      ∀ i, 0 ≤ (phases.foldl (syncEntryStep previous) acc).wrapped i ∧
        (phases.foldl (syncEntryStep previous) acc).wrapped i < 1 := by
  induction phases with
  | nil => intro acc h; exact h
  | cons e rest ih =>
    intro acc h
    rw [List.foldl_cons]
    exact ih _ (syncEntryStep_wrapped_bounds previous acc e h)

/-- C10: every slot's stored wrapped phase stays in `[0, 1)` across every
transport message: the sync handler folds each incoming finite phase through
`normalizePhase` (`((p % 1) + 1) % 1`) before computing the unwrap delta or
storing it, so even out-of-range samples keep the invariant, and
note-on/note-off preserve it; in addition note-off resets the slot's wrapped
and unwrapped phases to 0. -/
theorem storedWrapped_invariant (selectedIndex : ℕ) (message : TransportMessage)
    (s : FrontendState) (h : ∀ i, 0 ≤ s.synced.wrapped i ∧ s.synced.wrapped i < 1) :
    (∀ i, 0 ≤ (applyTransportMessage selectedIndex message s).synced.wrapped i ∧
      (applyTransportMessage selectedIndex message s).synced.wrapped i < 1) ∧
    (∀ (rawIndex : WireValue) (i : ℕ), toSequenceIndex rawIndex = some i →
      (applyNoteOff selectedIndex rawIndex s).synced.wrapped i = 0 ∧
      (applyNoteOff selectedIndex rawIndex s).synced.unwrapped i = 0) := by
  constructor
  · intro i
    cases message with
    | phaseSync rawBpm phases =>
      simp only [applyTransportMessage, applyPhaseSync]
      exact applySyncEntries_wrapped_bounds s.synced phases s.synced h i
    | noteOn rawIndex =>
      simp only [applyTransportMessage, applyNoteOn]
      cases htsi : toSequenceIndex rawIndex with
      | none => exact h i
      | some j => exact h i
    | noteOff rawIndex =>
      simp only [applyTransportMessage]
      cases htsi : toSequenceIndex rawIndex with
      | none =>
        simp only [applyNoteOff, htsi]
        exact h i
      | some j =>
        simp only [applyNoteOff, htsi]
        split
        · exact h i
        · by_cases hij : i = j
          · subst hij
            simp only [Function.update_same]
            norm_num
          · simp only [Function.update_noteq hij]
            exact h i
  · intro rawIndex i htsi
    simp only [applyNoteOff, htsi]
    split
    · rename_i hz
      exact hz
    · constructor <;> simp [Function.update_same]

/-- Witness for C10: an out-of-range sample `-0.3` leaves slot 0's stored
wrapped phase inside `[0, 1)`, and a note-off resets slot 3's wrapped phase
to 0. -/
theorem storedWrapped_invariant_witness :
    (0 ≤ (applyTransportMessage 0
        (.phaseSync (.num 0) [.fields (.num ((0 : ℕ) : ℚ)) (.num (-(3/10)))])
        ⟨fun _ => true, fun _ => 0, 120, ⟨fun _ => 1/2, fun _ => 1/2⟩, none⟩).synced.wrapped 0 ∧
      (applyTransportMessage 0
        (.phaseSync (.num 0) [.fields (.num ((0 : ℕ) : ℚ)) (.num (-(3/10)))])
        ⟨fun _ => true, fun _ => 0, 120, ⟨fun _ => 1/2, fun _ => 1/2⟩, none⟩).synced.wrapped 0 < 1) ∧
    (applyNoteOff 0 (.num ((3 : ℕ) : ℚ))
        ⟨fun _ => true, fun _ => 0, 120, ⟨fun _ => 1/2, fun _ => 1/2⟩, none⟩).synced.wrapped 3 = 0 := by
  have h := storedWrapped_invariant 0
    (.phaseSync (.num 0) [.fields (.num ((0 : ℕ) : ℚ)) (.num (-(3/10)))])
    ⟨fun _ => true, fun _ => 0, 120, ⟨fun _ => 1/2, fun _ => 1/2⟩, none⟩
    (fun i => ⟨by norm_num, by norm_num⟩)
  exact ⟨h.1 0, (h.2 (.num ((3 : ℕ) : ℚ)) 3 (toSequenceIndex_natCast 3 (by norm_num))).1⟩

theorem jsMod1_eq_self (q : ℚ) (h0 : 0 ≤ q) (h1 : q < 1) : jsMod1 q = q := by
  unfold jsMod1 jsTrunc
  rw [if_pos h0, Int.floor_eq_zero_iff.mpr ⟨h0, h1⟩]
  push_cast
  ring

/-- Counterexample to C1 as stated.  Foreground slot 0 is active, bpm is 60,
the time signature is 4/4 (`loopSeconds = 4`) and one second elapses, so the
claim requires the stored unwrapped phase read by the projector to advance
by `dtSeconds/loopSeconds = 1/4`; but the frame integrator `tick` never
touches the `syncedTransportPhases` store the projector reads — it advances
(and mod-folds) only `transportRef.current.phase` — so the projector-read
unwrapped phase stays at `3.9` instead of becoming `4.15`. -/
theorem tick_counterexample :
    ¬ (projectorUnwrappedPhase (tick 1000 4 4 0
        ⟨fun _ => true, fun _ => 9/10, 60, ⟨fun _ => 9/10, fun _ => 39/10⟩,
          some (9/10)⟩) 0 =
      projectorUnwrappedPhase
        ⟨fun _ => true, fun _ => 9/10, 60, ⟨fun _ => 9/10, fun _ => 39/10⟩,
          some (9/10)⟩ 0 + 1/4) := by
  intro hcl
  norm_num [projectorUnwrappedPhase, tick] at hcl

/-- C1 amended: on every display frame in which the foreground slot is
active, `bpm > 0` and the time signature is valid, the per-frame integrator
advances the foreground slot's stored phase in `transportRef.current.phase`
by `dtSeconds/loopSeconds` with the **stored** value mod-folded to `[0, 1)`
exactly like the displayed value (both are the same `% 1` result), and it
leaves the `syncedTransportPhases` store — the unwrapped value read by the
projector — completely unchanged; only correction messages advance that
store. -/
theorem tick_spec (frameDtMs numerator denominator : ℚ) (selectedIndex : ℕ)
    (s : FrontendState) (hact : s.active selectedIndex = true) (hbpm : 0 < s.bpm)
    (hnum : 0 < numerator) (hden : 0 < denominator) :
    (tick frameDtMs numerator denominator selectedIndex s).transportPhase selectedIndex =
      jsMod1 (s.transportPhase selectedIndex +
        max 0 (frameDtMs / 1000) / (numerator * (4 / denominator) * 60 / s.bpm)) ∧
    (tick frameDtMs numerator denominator selectedIndex s).playheadPhase =
      some (jsMod1 (s.transportPhase selectedIndex +
        max 0 (frameDtMs / 1000) / (numerator * (4 / denominator) * 60 / s.bpm))) ∧
    (tick frameDtMs numerator denominator selectedIndex s).synced = s.synced ∧
    (∀ i, projectorUnwrappedPhase (tick frameDtMs numerator denominator selectedIndex s) i =
      projectorUnwrappedPhase s i) := by
  have hloop : 0 < numerator * (4 / denominator) * 60 / s.bpm :=
    div_pos (mul_pos (mul_pos hnum (div_pos (by norm_num) hden)) (by norm_num)) hbpm
  unfold tick
  rw [if_neg (by push_neg; exact ⟨hact, hbpm, hnum, hden⟩)]
  simp only []
  rw [if_neg (not_le.mpr hloop)]
  refine ⟨by simp [Function.update_same], rfl, rfl, fun i => rfl⟩

/-- Witness for the amended C1: a concrete frame tick (dt = 0.5 s, 3/4
signature, bpm 120) folds-and-stores phase `5/6` into the transport store,
displays the same value, and leaves the synced store untouched. -/
theorem tick_spec_witness :
    (tick 500 3 4 0 ⟨fun _ => true, fun _ => 1/2, 120, ⟨fun _ => 1/2, fun _ => 2⟩,
        none⟩).transportPhase 0 = 5/6 ∧
    (tick 500 3 4 0 ⟨fun _ => true, fun _ => 1/2, 120, ⟨fun _ => 1/2, fun _ => 2⟩,
        none⟩).playheadPhase = some (5/6) ∧
    (tick 500 3 4 0 ⟨fun _ => true, fun _ => 1/2, 120, ⟨fun _ => 1/2, fun _ => 2⟩,
        none⟩).synced =
      (⟨fun _ => true, fun _ => 1/2, 120, ⟨fun _ => 1/2, fun _ => 2⟩,
        none⟩ : FrontendState).synced := by
  have h := tick_spec 500 3 4 0
    ⟨fun _ => true, fun _ => 1/2, 120, ⟨fun _ => 1/2, fun _ => 2⟩, none⟩
    rfl (by norm_num) (by norm_num) (by norm_num)
  have harg : jsMod1 ((1 : ℚ)/2 + max 0 ((500 : ℚ)/1000) / (3 * (4/4) * 60 / 120)) = 5/6 := by
    rw [show ((1 : ℚ)/2 + max 0 ((500 : ℚ)/1000) / (3 * (4/4) * 60 / 120)) = 5/6 by
      rw [max_eq_right (by norm_num : (0:ℚ) ≤ 500/1000)]
      norm_num]
    exact jsMod1_eq_self (5/6) (by norm_num) (by norm_num)
  refine ⟨?_, ?_, h.2.2.1⟩
  · rw [h.1]
    exact harg
  · rw [h.2.1]
    rw [harg]

theorem mem_loopIndices (firstLoop lastLoop k : ℤ) :
    k ∈ loopIndices firstLoop lastLoop ↔ firstLoop ≤ k ∧ k ≤ lastLoop := by
  unfold loopIndices
  rw [List.mem_map]
  constructor
  · rintro ⟨n, hn, rfl⟩
    rw [List.mem_range] at hn
    omega
  · rintro ⟨h1, h2⟩
    refine ⟨(k - firstLoop).toNat, ?_, by omega⟩
    rw [List.mem_range]
    omega

theorem loopIndices_nodup (firstLoop lastLoop : ℤ) :
    (loopIndices firstLoop lastLoop).Nodup := by
  unfold loopIndices
  refine List.Nodup.map ?_ (List.nodup_range _)
  intro a b h
  simp only [add_right_inj, Nat.cast_inj] at h
  exact h

theorem filterMap_eq_filter_map {β : Type} (l : List ℤ) (f : ℤ → Option β)
    (p : ℤ → Bool) (g : ℤ → β)
    (h : ∀ k ∈ l, f k = if p k then some (g k) else none) :
    l.filterMap f = (l.filter p).map g := by
  induction l with
  | nil => rfl
  | cons a rest ih =>
    have ha := h a (List.mem_cons_self a rest)
    have hrest := ih (fun k hk => h k (List.mem_cons_of_mem a hk))
    rw [List.filterMap_cons, List.filter_cons]
    cases hp : p a with
    | true =>
      rw [hp] at ha
      rw [if_pos rfl] at ha
      rw [ha, hrest]
      simp
    | false =>
      rw [hp] at ha
      simp only [Bool.false_eq_true, if_false] at ha
      rw [ha, hrest]
      simp

theorem projectNoteAtLoop_eq (ratioFgToBg anchor noteStart noteEnd : ℚ)
    (note : NoteSpanIR) (k : ℤ) (hr : 0 < ratioFgToBg) :
    projectNoteAtLoop ratioFgToBg anchor noteStart noteEnd note k =
      if max ((k : ℚ) + noteStart) anchor <
          min ((k : ℚ) + noteEnd) (anchor + ratioFgToBg) then
        some ⟨note.sequenceIndex, note.pitch,
          (max ((k : ℚ) + noteStart) anchor - anchor) / ratioFgToBg,
          (min ((k : ℚ) + noteEnd) (anchor + ratioFgToBg) -
            max ((k : ℚ) + noteStart) anchor) / ratioFgToBg,
          note.velocity⟩
      else none := by
  unfold projectNoteAtLoop
  simp only []
  by_cases hov : min ((k : ℚ) + noteEnd) (anchor + ratioFgToBg) ≤
      max ((k : ℚ) + noteStart) anchor
  · rw [if_pos hov, if_neg (not_lt.mpr hov)]
  · have hov' : max ((k : ℚ) + noteStart) anchor <
        min ((k : ℚ) + noteEnd) (anchor + ratioFgToBg) := not_le.mp hov
    rw [if_neg hov, if_pos hov']
    have h1 : anchor ≤ max ((k : ℚ) + noteStart) anchor := le_max_right _ _
    have h2 : min ((k : ℚ) + noteEnd) (anchor + ratioFgToBg) ≤ anchor + ratioFgToBg :=
      min_le_right _ _
    have ha : 0 ≤ (max ((k : ℚ) + noteStart) anchor - anchor) / ratioFgToBg :=
      div_nonneg (by linarith) hr.le
    have hb : (max ((k : ℚ) + noteStart) anchor - anchor) / ratioFgToBg ≤ 1 :=
      (div_le_one hr).mpr (by linarith)
    have hc : 0 ≤ (min ((k : ℚ) + noteEnd) (anchor + ratioFgToBg) - anchor) / ratioFgToBg :=
      div_nonneg (by linarith) hr.le
    have hd : (min ((k : ℚ) + noteEnd) (anchor + ratioFgToBg) - anchor) / ratioFgToBg ≤ 1 :=
      (div_le_one hr).mpr (by linarith)
    rw [clampNumber_of_mem _ ha hb, clampNumber_of_mem _ hc hd]
    rw [div_sub_div_same]
    have hwidth : 0 < (min ((k : ℚ) + noteEnd) (anchor + ratioFgToBg) - anchor -
        (max ((k : ℚ) + noteStart) anchor - anchor)) / ratioFgToBg :=
      div_pos (by linarith) hr
    rw [if_neg (not_le.mpr hwidth)]
    congr 1
    congr 1
    ring

/-- C3: in `windowBackgroundNotes`, for every ratio `> 0`, every anchor
(`bgPhase - selectedPhase*ratio`), and every background note span with
clamped endpoints `noteStart < noteEnd`: an integer repeat `k` has non-empty
overlap of `[noteStart+k, noteEnd+k)` with the window
`[anchor, anchor+ratio)` only if
`⌊anchor-noteEnd⌋+1 ≤ k ≤ ⌈anchor+ratio-noteStart⌉-1`, and the function's
output is exactly one projected span per `k` in that range with non-empty
overlap (whose mapped width is then automatically positive), with no `k`
emitted twice (the filtered range is duplicate-free). -/
theorem windowBackgroundNotes_loop_bound
    (ratioFgToBg selectedPhase bgPhase anchor noteStart noteEnd : ℚ)
    (firstLoop lastLoop : ℤ) (note : NoteSpanIR)
    (hanchor : anchor = bgPhase - selectedPhase * ratioFgToBg)
    (hns : noteStart = clampNumber note.x 0 1)
    (hnend : noteEnd = clampNumber (note.x + note.width) 0 1)
    (hfl : firstLoop = ⌊anchor - noteEnd⌋ + 1)
    (hll : lastLoop = ⌈anchor + ratioFgToBg - noteStart⌉ - 1)
    (hr : 0 < ratioFgToBg) (hlt : noteStart < noteEnd) :
    (∀ k : ℤ,
      max ((k : ℚ) + noteStart) anchor <
          min ((k : ℚ) + noteEnd) (anchor + ratioFgToBg) →
      firstLoop ≤ k ∧ k ≤ lastLoop) ∧
    windowBackgroundNotes [note] ratioFgToBg selectedPhase bgPhase =
      ((loopIndices firstLoop lastLoop).filter (fun k : ℤ =>
          decide (max ((k : ℚ) + noteStart) anchor <
            min ((k : ℚ) + noteEnd) (anchor + ratioFgToBg)))).map
        (fun k : ℤ => ⟨note.sequenceIndex, note.pitch,
          (max ((k : ℚ) + noteStart) anchor - anchor) / ratioFgToBg,
          (min ((k : ℚ) + noteEnd) (anchor + ratioFgToBg) -
            max ((k : ℚ) + noteStart) anchor) / ratioFgToBg,
          note.velocity⟩) ∧
    ((loopIndices firstLoop lastLoop).filter (fun k : ℤ =>
        decide (max ((k : ℚ) + noteStart) anchor <
          min ((k : ℚ) + noteEnd) (anchor + ratioFgToBg)))).Nodup := by
  refine ⟨?_, ?_, List.Nodup.filter _ (loopIndices_nodup firstLoop lastLoop)⟩
  · intro k hk
    have h1 : anchor < (k : ℚ) + noteEnd :=
      lt_of_le_of_lt (le_max_right _ _) (lt_of_lt_of_le hk (min_le_left _ _))
    have h2 : (k : ℚ) + noteStart < anchor + ratioFgToBg :=
      lt_of_le_of_lt (le_max_left _ _) (lt_of_lt_of_le hk (min_le_right _ _))
    constructor
    · rw [hfl]
      have : ⌊anchor - noteEnd⌋ < k := Int.floor_lt.mpr (by linarith)
      omega
    · rw [hll]
      have : k < ⌈anchor + ratioFgToBg - noteStart⌉ := Int.lt_ceil.mpr (by linarith)
      omega
  · unfold windowBackgroundNotes
    rw [if_neg (not_le.mpr hr)]
    simp only [List.flatMap_cons, List.flatMap_nil, List.append_nil]
    rw [← hanchor, ← hns, ← hnend]
    rw [if_neg (not_le.mpr hlt), ← hfl, ← hll]
    exact filterMap_eq_filter_map _ _ _ _
      (fun k _ => by
        rw [projectNoteAtLoop_eq ratioFgToBg anchor noteStart noteEnd note k hr]
        by_cases hc : max ((k : ℚ) + noteStart) anchor <
            min ((k : ℚ) + noteEnd) (anchor + ratioFgToBg)
        · rw [if_pos hc, if_pos (by simpa using hc)]
        · rw [if_neg hc, if_neg (by simpa using hc)])

/-- Witness for C3 at the spec's projection-count example: `ratio = 2.5`,
a background note of width `0.1` at `start = 0.95`, anchor 0: exactly the
repeats `k = 0` and `k = 1` intersect the window and are emitted. -/
theorem windowBackgroundNotes_loop_bound_witness :
    windowBackgroundNotes [⟨3, 5, 19/20, 1/10, 1⟩] (5/2) 0 0 =
      [⟨3, 5, 19/50, 1/50, 1⟩, ⟨3, 5, 39/50, 1/50, 1⟩] := by
  have hceil : (⌈(0 : ℚ) + 5/2 - 19/20⌉ : ℤ) = 2 := by
    rw [Int.ceil_eq_iff]
    norm_num
  have hfloor : (⌊(0 : ℚ) - 1⌋ : ℤ) = -1 := by
    rw [Int.floor_eq_iff]
    norm_num
  have h := (windowBackgroundNotes_loop_bound (5/2) 0 0 0 (19/20) 1 0 1
    ⟨3, 5, 19/20, 1/10, 1⟩
    (by norm_num)
    (by norm_num [clampNumber, min_def, max_def])
    (by norm_num [clampNumber, min_def, max_def])
    (by rw [hfloor]; norm_num)
    (by rw [hceil]; norm_num)
    (by norm_num) (by norm_num)).2.1
  rw [h]
  rw [show loopIndices 0 1 = [0, 1] from by decide]
  norm_num [List.filter_cons, List.filter_nil, min_def, max_def]

end XenFrontend
